import Mathlib

/-!
Verification of the pocket_dictionary repository (src/main.py).

The program stores vocabulary words grouped into named groups, each word with
an integer weight and a list of already-shown definitions, and runs a
weighted quiz loop. We embed the persistent data model and the operations of
src/main.py shallowly:

* Python dicts (which preserve insertion order) are association lists
  `List (String × α)`; `dictGet` is `d[k]` / `d.get(k)`, `dictSet` is
  `d[k] = v` (replace in place when the key is present, append when absent),
  `dictMem` is `k in d`.
* Sources of randomness (`random.choices`, `random.choice`) become explicit
  parameters: the chosen word, a natural-number index reduced modulo the
  length of the candidate list, mirroring that the runtime choice always
  lands inside the candidate list.
* The network lookup `get_all_definitions` is an external collaborator; its
  outcome enters the quiz step as an `Option (List String)` parameter
  (`none` models a failed request or unparseable response).
-/

namespace PocketDict

/-- main.py line 14. -/
def DEFAULT_WEIGHT : Int := 5

/-- main.py line 15: weight added on a wrong answer. -/
def WEIGHT_INCREASE : Int := 2

/-- main.py line 16: weight subtracted on a correct answer. -/
def WEIGHT_DECREASE : Int := 1

/-- Python's `s.lower()`: lowercase every character. -/
def pyLower (s : String) : String := String.mk (s.data.map Char.toLower)

/-- Python's `s.strip()`: drop whitespace from both ends. -/
def pyStrip (s : String) : String :=
  String.mk
    (((s.data.dropWhile Char.isWhitespace).reverse.dropWhile
        Char.isWhitespace).reverse)

/-- Python's `s.lower().strip()` normalisation applied to words and guesses
(main.py lines 42 and 265). -/
def normalize (s : String) : String := pyStrip (pyLower s)

/-- Python's `<=` on strings: lexicographic comparison of the character
sequences by code point — the order `sorted()` sorts by. -/
def pyStrLe (a b : String) : Prop := a.data ≤ b.data

instance : DecidableRel pyStrLe := fun a b => by
  unfold pyStrLe
  infer_instance

/-- One stored word entry: `{"weight": ..., "seen_definitions": [...]}`
(main.py line 47). -/
structure WordEntry where
  weight : Int
  seen_definitions : List String
deriving Repr, DecidableEq

/-- A group: Python dict from word to entry, in insertion order. -/
abbrev Group := List (String × WordEntry)

/-- The store: Python dict from group name to group, in insertion order. -/
abbrev Store := List (String × Group)

/-- `d[k]` / `d.get(k)`: value at the first occurrence of key `k`. -/
def dictGet (k : String) : List (String × α) → Option α
  | [] => none
  | (k2, v) :: t => if k = k2 then some v else dictGet k t

/-- `k in d`. -/
def dictMem (k : String) (d : List (String × α)) : Bool :=
  (dictGet k d).isSome

/-- `d[k] = v`: replace the value at the first occurrence of `k` keeping its
position, or append `(k, v)` at the end when `k` is absent — exactly the
behaviour of assignment into a Python dict. -/
def dictSet (k : String) (v : α) : List (String × α) → List (String × α)
  | [] => [(k, v)]
  | (k2, v2) :: t => if k = k2 then (k2, v) :: t else (k2, v2) :: dictSet k v t

/-! ### Word store operations -/

/-- main.py lines 38-51, `add_word_to_group`, as a function on the in-memory
store: normalise the word, create the group if absent
(`groups[group_name] = {}`), and insert
`{"weight": DEFAULT_WEIGHT, "seen_definitions": []}` when the word is not
yet in the group. Console printing and the `save_groups` call carry no
store content and are omitted. -/
def add_word_to_group (word : String) (group_name : String) (groups : Store) :
    Store :=
  let w := normalize word
  let groups1 := if dictMem group_name groups then groups
                 else dictSet group_name ([] : Group) groups
  let g := (dictGet group_name groups1).getD []
  if dictMem w g then groups1
  else dictSet group_name (dictSet w ⟨DEFAULT_WEIGHT, []⟩ g) groups1

/-- The entry stored for `word` (after normalisation) in group `gname`. -/
def lookupEntry (groups : Store) (gname word : String) : Option WordEntry :=
  (dictGet gname groups).bind (fun g => dictGet (normalize word) g)

/-- main.py lines 90-101, `get_words_from_group`: with a group,
`list(groups.get(group_name, {}).keys())`; without, the for-loop
`all_words.extend(group.keys())` over `groups.values()`. -/
def get_words_from_group (groups : Store) (group_name : Option String) :
    List String :=
  match group_name with
  | some gname => ((dictGet gname groups).getD []).map Prod.fst
  | none => groups.foldl (fun all_words p => all_words ++ p.2.map Prod.fst) []

/-! ### Persistence: load_groups over raw JSON values

`load_groups` (main.py lines 20-31) opens GROUP_FILE and runs `json.load`,
catching exactly `FileNotFoundError` and `json.JSONDecodeError`. We model
the outcome of the open-and-decode phase as an `Option PyJson`: `none` when
the file is missing or its text does not decode as JSON (the caught
exceptions), `some v` when `json.load` returns the Python value `v`.
`PyJson` covers the values `json.load` can produce. -/
inductive PyJson where
  | obj : List (String × PyJson) → PyJson
  | arr : List PyJson → PyJson
  | str : String → PyJson
  | num : Int → PyJson
  | bool : Bool → PyJson
  | null : PyJson

/-- Is the value a JSON object (a Python dict)? Everything `word_test`,
`list_all` and friends do with the loaded value requires this shape. -/
def isObj : PyJson → Bool
  | PyJson.obj _ => true
  | _ => false

/-- The value returned on a missing or undecodable file:
`{"default": {}}` (main.py line 31). -/
def default_groups_json : PyJson := PyJson.obj [("default", PyJson.obj [])]

/-- main.py lines 20-31, `load_groups`: return `json.load`'s value when
decoding succeeds, `{"default": {}}` when the file is missing or not JSON. -/
def load_groups (parsed : Option PyJson) : PyJson :=
  match parsed with
  | none => default_groups_json
  | some v => v

/-! ### The quiz engine (main.py, `word_test`, lines 214-289)

One loop iteration (lines 244-276) reads, for the chosen word: the unseen
definitions, a reset of `seen_definitions` when every known definition has
been seen, the definition to show, and then scores the guess. We name the
intermediate lists exactly as the loop computes them. -/

/-- Line 254: `[d for d in all_definitions if d not in seen_definitions]`. -/
def unseenOf (all_definitions seen_definitions : List String) : List String :=
  all_definitions.filter (fun d => decide (d ∉ seen_definitions))

/-- Lines 255-256: `seen_definitions` after the possible cycle reset (set to
`[]` when no unseen definition remains, kept otherwise). -/
def seenAfterReset (all_definitions seen_definitions : List String) :
    List String :=
  if unseenOf all_definitions seen_definitions = [] then []
  else seen_definitions

/-- Lines 255-257: the candidate list `unseen_definitions` that
`random.choice` draws from (the full list after a reset). -/
def unseenPool (all_definitions seen_definitions : List String) :
    List String :=
  if unseenOf all_definitions seen_definitions = [] then all_definitions
  else unseenOf all_definitions seen_definitions

/-- Line 258: `definition_to_show = random.choice(unseen_definitions)`; the
random draw is an index reduced modulo the pool length. The `""` default of
`getD` is never reached when `all_definitions` is non-empty. -/
def shownDef (all_definitions seen_definitions : List String) (r : Nat) :
    String :=
  (unseenPool all_definitions seen_definitions).getD
    (r % (unseenPool all_definitions seen_definitions).length) ""

/-- Lines 255-258 and 276: the value of the chosen word's
`seen_definitions` after one answered iteration — the post-reset list with
the shown definition appended. -/
def defStep (all_definitions : List String) (seen_definitions : List String)
    (r : Nat) : List String :=
  seenAfterReset all_definitions seen_definitions ++
    [shownDef all_definitions seen_definitions r]

/-- The shown-definitions history of one word across a sequence of answered
iterations whose lookup keeps returning `all_definitions`. -/
def runDefs (all_definitions : List String) (seen_definitions : List String)
    (picks : List Nat) : List String :=
  picks.foldl (defStep all_definitions) seen_definitions

/-- The engine's in-session state: the chosen group's dict (`weights_data`,
mutated in place by the loop) and the two counters. -/
structure QuizState where
  weights_data : Group
  correct_count : Nat
  incorrect_count : Nat
deriving Repr, DecidableEq

/-- One iteration of the `while True` loop (main.py lines 244-276) for a
given chosen word. `lookupResult` is the outcome of
`get_all_definitions(chosen_word)` (`none` = request/parse failure);
`r` drives `random.choice` over the unseen pool; `rawGuess` is the typed
guess. When the lookup fails or yields no definitions the iteration is a
`continue` with no state change (lines 249-251). The `dictGet ... | none`
branch is unreachable in the program because `chosen_word` is drawn from
`weights_data.keys()` (line 245-247). -/
def quizStep (st : QuizState) (chosen_word : String)
    (lookupResult : Option (List String)) (r : Nat) (rawGuess : String) :
    QuizState :=
  match lookupResult with
  | none => st
  | some all_definitions =>
    if all_definitions = [] then st
    else
      match dictGet chosen_word st.weights_data with
      | none => st
      | some entry =>
        let guess := normalize rawGuess
        if guess = chosen_word then
          { weights_data :=
              dictSet chosen_word
                { weight := max 1 (entry.weight - WEIGHT_DECREASE),
                  seen_definitions :=
                    defStep all_definitions entry.seen_definitions r }
                st.weights_data,
            correct_count := st.correct_count + 1,
            incorrect_count := st.incorrect_count }
        else
          { weights_data :=
              dictSet chosen_word
                { weight := entry.weight + WEIGHT_INCREASE,
                  seen_definitions :=
                    defStep all_definitions entry.seen_definitions r }
                st.weights_data,
            correct_count := st.correct_count,
            incorrect_count := st.incorrect_count + 1 }

/-- The per-iteration inputs the environment supplies to the loop. -/
structure QuizInput where
  chosen_word : String
  lookupResult : Option (List String)
  r : Nat
  rawGuess : String
deriving Repr

/-- A whole run of the quiz loop over a list of per-iteration inputs. -/
def runQuiz (st : QuizState) (steps : List QuizInput) : QuizState :=
  steps.foldl
    (fun s q => quizStep s q.chosen_word q.lookupResult q.r q.rawGuess) st

/-- The effect of one answered iteration on the whole store: `weights_data`
is `groups[gname]` mutated in place, so the store after the iteration holds
the updated group under `gname` and every other group untouched. The
counters are session-local and never stored. -/
def storeQuizStep (groups : Store) (gname chosen_word : String)
    (lookupResult : Option (List String)) (r : Nat) (rawGuess : String) :
    Store :=
  match dictGet gname groups with
  | none => groups
  | some wd =>
      dictSet gname
        (quizStep ⟨wd, 0, 0⟩ chosen_word lookupResult r rawGuess).weights_data
        groups

/-! ### Quiz start-up (main.py lines 218-237) -/

/-- Line 230: `random_group_name = random.choice(list(groups.keys()))` —
the draw is over the keys of ALL groups, an index reduced modulo the number
of groups. -/
def chosenGroupName (groups : Store) (r : Nat) : String :=
  (groups.map Prod.fst).getD (r % groups.length) ""

/-- How `word_test` leaves its start-up phase. -/
inductive TestInit where
  | emptyStore
  | emptyGroupError
  | emptyPool (gname : String)
  | pool (gname : String) (weights_data : Group)
deriving Repr, DecidableEq

/-- main.py lines 218-237: the start-up of `word_test`. An empty store
aborts; a requested group that is missing or empty aborts; otherwise
`weights_data` is the requested group, or — with no group requested — the
group drawn by `random.choice` over all group names, aborting with
"No words found to test." when that group is empty. -/
def word_test_init (groups : Store) (gchoice : Option String) (r : Nat) :
    TestInit :=
  if groups = [] then TestInit.emptyStore
  else
    match gchoice with
    | some gname =>
        match dictGet gname groups with
        | none => TestInit.emptyGroupError
        | some wd =>
            if wd = [] then TestInit.emptyGroupError
            else TestInit.pool gname wd
    | none =>
        let gname := chosenGroupName groups r
        let wd := (dictGet gname groups).getD []
        if wd = [] then TestInit.emptyPool gname
        else TestInit.pool gname wd

/-! ### Session summary (main.py lines 278-286) -/

/-- What the `KeyboardInterrupt` handler reports. -/
inductive TestReport where
  | stats (correct incorrect : Nat) (success_rate : ℚ) : TestReport
  | noQuestions : TestReport
deriving Repr, DecidableEq

/-- main.py lines 280-286: report the success rate
`(correct_count / total) * 100` when `total > 0`, otherwise the
"You didn't answer any questions." message. -/
def finalize_report (correct_count incorrect_count : Nat) : TestReport :=
  let total := correct_count + incorrect_count
  if total > 0 then
    TestReport.stats correct_count incorrect_count
      ((correct_count : ℚ) / (total : ℚ) * 100)
  else TestReport.noQuestions

/-! ### Lemmas about the dict operations -/

theorem dictGet_dictSet_self (k : String) (v : α) (d : List (String × α)) :
    dictGet k (dictSet k v d) = some v := by
  induction d with
  | nil => simp [dictSet, dictGet]
  | cons p t ih =>
    obtain ⟨k2, v2⟩ := p
    by_cases h : k = k2
    · simp [dictSet, dictGet, h]
    · simp [dictSet, dictGet, h, ih]

theorem dictGet_dictSet_ne (k k2 : String) (v : α) (d : List (String × α))
    (h : k2 ≠ k) : dictGet k2 (dictSet k v d) = dictGet k2 d := by
  induction d with
  | nil => simp [dictSet, dictGet, h]
  | cons p t ih =>
    obtain ⟨k3, v3⟩ := p
    by_cases h2 : k = k3
    · subst h2
      simp [dictSet, dictGet, h]
    · by_cases h3 : k2 = k3 <;> simp [dictSet, dictGet, h2, h3, ih]

theorem dictGet_dictSet_cases (k k2 : String) (v : α) (d : List (String × α))
    (w : α) (h : dictGet k2 (dictSet k v d) = some w) :
    w = v ∨ dictGet k2 d = some w := by
  by_cases hk : k2 = k
  · subst hk
    rw [dictGet_dictSet_self] at h
    exact Or.inl (Option.some.inj h).symm
  · rw [dictGet_dictSet_ne k k2 v d hk] at h
    exact Or.inr h

theorem dictGet_mem (k : String) (d : List (String × α)) (v : α)
    (h : dictGet k d = some v) : (k, v) ∈ d := by
  induction d with
  | nil => simp [dictGet] at h
  | cons p t ih =>
    obtain ⟨k2, v2⟩ := p
    by_cases h2 : k = k2
    · subst h2
      simp [dictGet] at h
      simp [h]
    · simp [dictGet, h2] at h
      exact List.mem_cons_of_mem _ (ih h)

theorem dictGet_isSome_of_mem_keys (k : String) (d : List (String × α))
    (h : k ∈ d.map Prod.fst) : ∃ v, dictGet k d = some v := by
  induction d with
  | nil => simp at h
  | cons p t ih =>
    obtain ⟨k2, v2⟩ := p
    by_cases h2 : k = k2
    · exact ⟨v2, by simp [dictGet, h2]⟩
    · rw [List.map_cons] at h
      have h3 : k ∈ t.map Prod.fst := by
        rcases List.mem_cons.mp h with h4 | h4
        · exact absurd h4 h2
        · exact h4
      obtain ⟨v, hv⟩ := ih h3
      exact ⟨v, by simp [dictGet, h2, hv]⟩

theorem getD_mem (l : List α) (n : Nat) (d : α) (h : n < l.length) :
    l.getD n d ∈ l := by
  induction l generalizing n with
  | nil => simp at h
  | cons a t ih =>
    match n with
    | 0 => simp
    | Nat.succ m =>
      rw [List.getD_cons_succ]
      exact List.mem_cons_of_mem a (ih m (by simpa using h))

/-! ### Lemmas about the definition-cycle lists -/

theorem unseenOf_eq_nil_iff (all_definitions seen : List String) :
    unseenOf all_definitions seen = [] ↔ ∀ d ∈ all_definitions, d ∈ seen := by
  simp [unseenOf, List.filter_eq_nil_iff]

theorem mem_of_mem_unseenOf {all_definitions seen : List String} {x : String}
    (h : x ∈ unseenOf all_definitions seen) : x ∈ all_definitions ∧ x ∉ seen := by
  simpa [unseenOf, List.mem_filter] using h

theorem unseenPool_ne_nil (all_definitions seen : List String)
    (h : all_definitions ≠ []) : unseenPool all_definitions seen ≠ [] := by
  by_cases h0 : unseenOf all_definitions seen = []
  · simpa [unseenPool, h0] using h
  · simp [unseenPool, h0]

theorem unseenPool_subset (all_definitions seen : List String) :
    ∀ x ∈ unseenPool all_definitions seen, x ∈ all_definitions := by
  intro x hx
  by_cases h0 : unseenOf all_definitions seen = []
  · rw [unseenPool, if_pos h0] at hx
    exact hx
  · rw [unseenPool, if_neg h0] at hx
    exact (mem_of_mem_unseenOf hx).1

theorem shownDef_mem_unseenPool (all_definitions seen : List String) (r : Nat)
    (h : all_definitions ≠ []) :
    shownDef all_definitions seen r ∈ unseenPool all_definitions seen := by
  have hne := unseenPool_ne_nil all_definitions seen h
  have hlen : 0 < (unseenPool all_definitions seen).length :=
    List.length_pos.mpr hne
  exact getD_mem _ _ _ (Nat.mod_lt _ hlen)

theorem shownDef_not_seen (all_definitions seen : List String) (r : Nat)
    (h : all_definitions ≠ []) :
    shownDef all_definitions seen r ∉ seenAfterReset all_definitions seen := by
  by_cases h0 : unseenOf all_definitions seen = []
  · simp [seenAfterReset, h0]
  · have hm := shownDef_mem_unseenPool all_definitions seen r h
    rw [unseenPool, if_neg h0] at hm
    rw [seenAfterReset, if_neg h0]
    exact (mem_of_mem_unseenOf hm).2

theorem defStep_nodup_subset (all_definitions seen : List String) (r : Nat)
    (h : all_definitions ≠ []) (hseen : seen.Nodup)
    (hsub : ∀ x ∈ seen, x ∈ all_definitions) :
    (defStep all_definitions seen r).Nodup ∧
      ∀ x ∈ defStep all_definitions seen r, x ∈ all_definitions := by
  have hresetN : (seenAfterReset all_definitions seen).Nodup := by
    by_cases h0 : unseenOf all_definitions seen = [] <;>
      simp [seenAfterReset, h0, hseen]
  have hresetS : ∀ x ∈ seenAfterReset all_definitions seen, x ∈ seen := by
    intro x hx
    by_cases h0 : unseenOf all_definitions seen = []
    · rw [seenAfterReset, if_pos h0] at hx
      simp at hx
    · rw [seenAfterReset, if_neg h0] at hx
      exact hx
  constructor
  · rw [defStep, List.nodup_append]
    refine ⟨hresetN, List.nodup_singleton _, ?_⟩
    intro x hx hx2
    rw [List.mem_singleton] at hx2
    subst hx2
    exact shownDef_not_seen all_definitions seen r h hx
  · intro x hx
    rw [defStep, List.mem_append] at hx
    rcases hx with hx | hx
    · exact hsub x (hresetS x hx)
    · rw [List.mem_singleton] at hx
      subst hx
      exact unseenPool_subset all_definitions seen _
        (shownDef_mem_unseenPool all_definitions seen r h)

theorem runDefs_nodup_subset (all_definitions : List String)
    (picks : List Nat) (seen : List String) (h : all_definitions ≠ [])
    (hseen : seen.Nodup) (hsub : ∀ x ∈ seen, x ∈ all_definitions) :
    (runDefs all_definitions seen picks).Nodup ∧
      ∀ x ∈ runDefs all_definitions seen picks, x ∈ all_definitions := by
  induction picks generalizing seen with
  | nil => exact ⟨hseen, hsub⟩
  | cons p t ih =>
    obtain ⟨h1, h2⟩ := defStep_nodup_subset all_definitions seen p h hseen hsub
    exact ih (defStep all_definitions seen p) h1 h2

/-! ### Lemmas about a single quiz iteration -/

theorem quizStep_lookup_none (st : QuizState) (c : String) (r : Nat)
    (g : String) : quizStep st c none r g = st := rfl

theorem quizStep_lookup_nil (st : QuizState) (c : String) (r : Nat)
    (g : String) : quizStep st c (some []) r g = st := rfl

theorem quizStep_weight_floor (st : QuizState) (c : String)
    (lr : Option (List String)) (r : Nat) (g : String) (w : String)
    (e : WordEntry) (h : dictGet w st.weights_data = some e)
    (hw : 1 ≤ e.weight) :
    ∃ e2, dictGet w (quizStep st c lr r g).weights_data = some e2 ∧
      1 ≤ e2.weight := by
  match lr with
  | none => exact ⟨e, h, hw⟩
  | some all =>
    by_cases hA : all = []
    · subst hA
      exact ⟨e, h, hw⟩
    · rcases hc : dictGet c st.weights_data with _ | entry
      · refine ⟨e, ?_, hw⟩
        simp [quizStep, hA, hc, h]
      · by_cases hwc : w = c
        · subst hwc
          rw [h] at hc
          obtain rfl : e = entry := Option.some.inj hc
          by_cases hg : normalize g = w
          · refine ⟨⟨max 1 (e.weight - WEIGHT_DECREASE),
              defStep all e.seen_definitions r⟩, ?_, le_max_left 1 _⟩
            simp [quizStep, hA, h, hg, dictGet_dictSet_self]
          · refine ⟨⟨e.weight + WEIGHT_INCREASE,
              defStep all e.seen_definitions r⟩, ?_, ?_⟩
            · simp [quizStep, hA, h, hg, dictGet_dictSet_self]
            · show (1 : Int) ≤ e.weight + WEIGHT_INCREASE
              unfold WEIGHT_INCREASE
              omega
        · refine ⟨e, ?_, hw⟩
          by_cases hg : normalize g = c <;>
            simp [quizStep, hA, hc, hg, dictGet_dictSet_ne c w _ _ hwc, h]

/-! ### The claims -/

/-- C1: every word entry whose weight is at least 1 before a SCORING
transition still has weight at least 1 afterwards, for any answer and any
sequence of quiz iterations (the clamp `max(1, weight - WEIGHT_DECREASE)` on
a correct answer, `weight + WEIGHT_INCREASE` on a wrong one, main.py lines
267-274). -/
theorem weight_floor_invariant (st : QuizState) (steps : List QuizInput)
    (w : String) (e : WordEntry) (h : dictGet w st.weights_data = some e)
    (hw : 1 ≤ e.weight) :
    ∃ e2, dictGet w (runQuiz st steps).weights_data = some e2 ∧
      1 ≤ e2.weight := by
  induction steps generalizing st e with
  | nil => exact ⟨e, h, hw⟩
  | cons q t ih =>
    obtain ⟨e2, h2, hw2⟩ :=
      quizStep_weight_floor st q.chosen_word q.lookupResult q.r q.rawGuess
        w e h hw
    exact ih _ _ h2 hw2

theorem weight_floor_invariant_witness :
    ∃ e2,
      dictGet "a"
        (runQuiz ⟨[("a", ⟨1, []⟩)], 0, 0⟩
          [⟨"a", some ["d"], 0, "x"⟩, ⟨"a", some ["d"], 1, "a"⟩]).weights_data
        = some e2 ∧ 1 ≤ e2.weight :=
  weight_floor_invariant ⟨[("a", ⟨1, []⟩)], 0, 0⟩
    [⟨"a", some ["d"], 0, "x"⟩, ⟨"a", some ["d"], 1, "a"⟩] "a" ⟨1, []⟩
    (by decide) (by decide)

/-- C5: an iteration whose definitions lookup fails (`None`) or returns no
definitions (`[]`) leaves the whole quiz state unchanged — no weight, no
seen-definitions history, no counter — and the loop goes on (main.py lines
248-251); a whole run of such iterations is the identity on the state. -/
theorem lookup_failure_no_mutation (st : QuizState) (steps : List QuizInput)
    (hfail : ∀ q ∈ steps, q.lookupResult = none ∨ q.lookupResult = some []) :
    runQuiz st steps = st := by
  induction steps generalizing st with
  | nil => rfl
  | cons q t ih =>
    have hstep : quizStep st q.chosen_word q.lookupResult q.r q.rawGuess = st := by
      rcases hfail q (List.mem_cons_self q t) with hq | hq <;> rw [hq] <;> rfl
    have hrun : runQuiz st (q :: t) =
        runQuiz (quizStep st q.chosen_word q.lookupResult q.r q.rawGuess) t := rfl
    rw [hrun, hstep]
    exact ih st (fun q2 hq2 => hfail q2 (List.mem_cons_of_mem q hq2))

theorem lookup_failure_no_mutation_witness :
    runQuiz ⟨[("a", ⟨5, ["d"]⟩)], 2, 3⟩
      [⟨"a", none, 0, "x"⟩, ⟨"b", some [], 1, "y"⟩] = ⟨[("a", ⟨5, ["d"]⟩)], 2, 3⟩ :=
  lookup_failure_no_mutation ⟨[("a", ⟨5, ["d"]⟩)], 2, 3⟩
    [⟨"a", none, 0, "x"⟩, ⟨"b", some [], 1, "y"⟩] (by decide)

/-- C9: at FINALIZING the engine reports
`correct / (correct + incorrect) * 100` when at least one question was
answered, and the "You didn't answer any questions." message when none was —
the division is never taken with a zero denominator (main.py lines
279-286). -/
theorem finalize_report_spec (correct incorrect : Nat) :
    (0 < correct + incorrect →
      finalize_report correct incorrect =
        TestReport.stats correct incorrect
          ((correct : ℚ) / ((correct : ℚ) + (incorrect : ℚ)) * 100))
    ∧ (correct + incorrect = 0 →
      finalize_report correct incorrect = TestReport.noQuestions) := by
  constructor
  · intro h
    rw [finalize_report]
    simp only [h, if_pos]
    push_cast
    ring_nf
  · intro h
    rw [finalize_report]
    simp [h]

theorem finalize_report_spec_witness :
    finalize_report 1 1 =
      TestReport.stats 1 1 ((1 : ℚ) / ((1 : ℚ) + (1 : ℚ)) * 100)
    ∧ finalize_report 0 0 = TestReport.noQuestions :=
  ⟨(finalize_report_spec 1 1).1 (by decide), (finalize_report_spec 0 0).2 rfl⟩

/-- C2: in a SCORING step on a word with entry `entry`, a correct answer
(normalised guess equal to the chosen word) stores weight
`max 1 (entry.weight - 1)` and adds one to the correct counter; an incorrect
answer stores `entry.weight + 2` and adds one to the incorrect counter; in
both cases the shown definition is appended to the word's (post-reset)
`seen_definitions` (main.py lines 265-276). -/
theorem scoring_spec (st : QuizState) (chosen : String)
    (all_definitions : List String) (r : Nat) (rawGuess : String)
    (entry : WordEntry) (hA : all_definitions ≠ [])
    (h : dictGet chosen st.weights_data = some entry) :
    (normalize rawGuess = chosen →
      dictGet chosen
          (quizStep st chosen (some all_definitions) r rawGuess).weights_data =
        some ⟨max 1 (entry.weight - 1),
          seenAfterReset all_definitions entry.seen_definitions ++
            [shownDef all_definitions entry.seen_definitions r]⟩
      ∧ (quizStep st chosen (some all_definitions) r rawGuess).correct_count =
          st.correct_count + 1
      ∧ (quizStep st chosen (some all_definitions) r rawGuess).incorrect_count =
          st.incorrect_count)
    ∧ (¬ normalize rawGuess = chosen →
      dictGet chosen
          (quizStep st chosen (some all_definitions) r rawGuess).weights_data =
        some ⟨entry.weight + 2,
          seenAfterReset all_definitions entry.seen_definitions ++
            [shownDef all_definitions entry.seen_definitions r]⟩
      ∧ (quizStep st chosen (some all_definitions) r rawGuess).correct_count =
          st.correct_count
      ∧ (quizStep st chosen (some all_definitions) r rawGuess).incorrect_count =
          st.incorrect_count + 1) := by
  constructor
  · intro hg
    refine ⟨?_, ?_, ?_⟩ <;>
      simp [quizStep, hA, h, hg, dictGet_dictSet_self, defStep,
        WEIGHT_DECREASE]
  · intro hg
    refine ⟨?_, ?_, ?_⟩ <;>
      simp [quizStep, hA, h, hg, dictGet_dictSet_self, defStep,
        WEIGHT_INCREASE]

theorem scoring_spec_witness :
    (dictGet "a"
        (quizStep ⟨[("a", ⟨5, ["d1"]⟩)], 0, 0⟩ "a" (some ["d1", "d2"]) 0
          "a").weights_data =
      some ⟨max 1 ((5 : Int) - 1),
        seenAfterReset ["d1", "d2"] ["d1"] ++ [shownDef ["d1", "d2"] ["d1"] 0]⟩)
    ∧ (quizStep ⟨[("a", ⟨5, ["d1"]⟩)], 0, 0⟩ "a" (some ["d1", "d2"]) 0
        "a").correct_count = 0 + 1
    ∧ (quizStep ⟨[("a", ⟨5, ["d1"]⟩)], 0, 0⟩ "a" (some ["d1", "d2"]) 0
        "a").incorrect_count = 0 :=
  (scoring_spec ⟨[("a", ⟨5, ["d1"]⟩)], 0, 0⟩ "a" ["d1", "d2"] 0 "a"
    ⟨5, ["d1"]⟩ (by decide) (by decide)).1 (by decide)

/-- C3: for a word with distinct known definitions, the engine never shows a
definition twice inside one cycle: the reset fires exactly when every known
definition has been seen (and then the whole pool has been shown, the seen
list having full length), the chosen definition is never in the current
post-reset seen list, and over any sequence of answered iterations the seen
list stays duplicate-free and inside the known definitions (main.py lines
253-258 and 276). -/
theorem no_repeat_until_exhausted (all_definitions seen : List String)
    (r : Nat) (picks : List Nat) (hall : all_definitions.Nodup)
    (hne : all_definitions ≠ []) (hseen : seen.Nodup)
    (hsub : ∀ x ∈ seen, x ∈ all_definitions) :
    (unseenOf all_definitions seen = [] ↔ ∀ d ∈ all_definitions, d ∈ seen)
    ∧ (unseenOf all_definitions seen = [] →
        seen.length = all_definitions.length)
    ∧ shownDef all_definitions seen r ∉ seenAfterReset all_definitions seen
    ∧ shownDef all_definitions seen r ∈ all_definitions
    ∧ (runDefs all_definitions seen picks).Nodup
    ∧ ∀ x ∈ runDefs all_definitions seen picks, x ∈ all_definitions := by
  obtain ⟨hN, hS⟩ := runDefs_nodup_subset all_definitions picks seen hne hseen hsub
  refine ⟨unseenOf_eq_nil_iff all_definitions seen, ?_, shownDef_not_seen all_definitions seen r hne, unseenPool_subset all_definitions seen _ (shownDef_mem_unseenPool all_definitions seen r hne), hN, hS⟩
  intro h0
  have hallsub : ∀ x ∈ all_definitions, x ∈ seen :=
    (unseenOf_eq_nil_iff all_definitions seen).mp h0
  have h1 : seen.length ≤ all_definitions.length :=
    (hseen.subperm (fun x hx => hsub x hx)).length_le
  have h2 : all_definitions.length ≤ seen.length :=
    (hall.subperm (fun x hx => hallsub x hx)).length_le
  omega

theorem no_repeat_until_exhausted_witness :
    (unseenOf ["d1", "d2"] ["d1"] = [] ↔ ∀ d ∈ ["d1", "d2"], d ∈ ["d1"])
    ∧ (unseenOf ["d1", "d2"] ["d1"] = [] →
        (["d1"] : List String).length = (["d1", "d2"] : List String).length)
    ∧ shownDef ["d1", "d2"] ["d1"] 0 ∉ seenAfterReset ["d1", "d2"] ["d1"]
    ∧ shownDef ["d1", "d2"] ["d1"] 0 ∈ ["d1", "d2"]
    ∧ (runDefs ["d1", "d2"] ["d1"] [0, 1, 0]).Nodup
    ∧ ∀ x ∈ runDefs ["d1", "d2"] ["d1"] [0, 1, 0], x ∈ ["d1", "d2"] :=
  no_repeat_until_exhausted ["d1", "d2"] ["d1"] 0 [0, 1, 0] (by decide)
    (by decide) (by decide) (by decide)

/-- C10: an answered iteration mutates at most the chosen word's entry:
every other word of the pool keeps its stored entry, and every other group
of the store is untouched (main.py lines 244-276 mutate only
`weights_data[chosen_word]`, and `weights_data` is `groups[group_name]`). -/
theorem quiz_frame (st : QuizState) (chosen : String)
    (lr : Option (List String)) (r : Nat) (rawGuess : String)
    (groups : Store) (gname w2 g2 : String) (hw : w2 ≠ chosen)
    (hg : g2 ≠ gname) :
    dictGet w2 (quizStep st chosen lr r rawGuess).weights_data =
      dictGet w2 st.weights_data
    ∧ dictGet g2 (storeQuizStep groups gname chosen lr r rawGuess) =
      dictGet g2 groups := by
  constructor
  · match lr with
    | none => rfl
    | some all =>
      by_cases hA : all = []
      · subst hA
        rfl
      · rcases hc : dictGet chosen st.weights_data with _ | entry
        · simp [quizStep, hA, hc]
        · by_cases hgg : normalize rawGuess = chosen <;>
            simp [quizStep, hA, hc, hgg, dictGet_dictSet_ne chosen w2 _ _ hw]
  · rcases hG : dictGet gname groups with _ | wd
    · simp [storeQuizStep, hG]
    · simp [storeQuizStep, hG, dictGet_dictSet_ne gname g2 _ _ hg]

theorem quiz_frame_witness :
    dictGet "b"
        (quizStep ⟨[("a", ⟨5, []⟩), ("b", ⟨7, ["x"]⟩)], 0, 0⟩ "a"
          (some ["d"]) 0 "z").weights_data =
      dictGet "b" ([("a", ⟨5, []⟩), ("b", ⟨7, ["x"]⟩)] : Group)
    ∧ dictGet "h"
        (storeQuizStep [("g", [("a", ⟨5, []⟩)]), ("h", [("c", ⟨2, []⟩)])]
          "g" "a" (some ["d"]) 0 "z") =
      dictGet "h"
        ([("g", [("a", ⟨5, []⟩)]), ("h", [("c", ⟨2, []⟩)])] : Store) :=
  quiz_frame ⟨[("a", ⟨5, []⟩), ("b", ⟨7, ["x"]⟩)], 0, 0⟩ "a" (some ["d"]) 0
    "z" [("g", [("a", ⟨5, []⟩)]), ("h", [("c", ⟨2, []⟩)])] "g" "b" "h"
    (by decide) (by decide)

/-! ### Lemmas about add_word_to_group -/

theorem add_word_of_present (groups : Store) (word gname : String)
    (e : WordEntry) (h : lookupEntry groups gname word = some e) :
    add_word_to_group word gname groups = groups := by
  rcases hG : dictGet gname groups with _ | g0
  · rw [lookupEntry, hG] at h
    simp at h
  · rw [lookupEntry, hG] at h
    rw [Option.some_bind] at h
    simp [add_word_to_group, dictMem, hG, h]

theorem add_word_of_absent (groups : Store) (word gname : String)
    (h : lookupEntry groups gname word = none) :
    lookupEntry (add_word_to_group word gname groups) gname word =
      some ⟨DEFAULT_WEIGHT, []⟩ := by
  rcases hG : dictGet gname groups with _ | g0
  · simp [add_word_to_group, lookupEntry, dictMem, hG,
      dictGet_dictSet_self, dictGet]
  · rw [lookupEntry, hG] at h
    rw [Option.some_bind] at h
    simp [add_word_to_group, lookupEntry, dictMem, hG, h,
      dictGet_dictSet_self]

/-- C6: `add_word_to_group` is idempotent — when the normalised word is
already stored in the group a second add returns the store unchanged (entry,
weight, history and all); a word not yet stored is inserted with weight
`DEFAULT_WEIGHT = 5` and an empty `seen_definitions` (main.py lines
38-51). -/
theorem add_word_idempotent (groups : Store) (word gname : String) :
    (∀ e, lookupEntry groups gname word = some e →
        add_word_to_group word gname groups = groups)
    ∧ (lookupEntry groups gname word = none →
        lookupEntry (add_word_to_group word gname groups) gname word =
          some ⟨5, []⟩)
    ∧ add_word_to_group word gname (add_word_to_group word gname groups) =
        add_word_to_group word gname groups := by
  refine ⟨fun e he => add_word_of_present groups word gname e he,
    fun h => add_word_of_absent groups word gname h, ?_⟩
  rcases he : lookupEntry groups gname word with _ | e
  · exact add_word_of_present _ word gname ⟨DEFAULT_WEIGHT, []⟩
      (add_word_of_absent groups word gname he)
  · have he2 := add_word_of_present groups word gname e he
    rw [he2]
    exact he2

theorem add_word_idempotent_witness :
    lookupEntry (add_word_to_group "Lexicon " "default" []) "default"
        "Lexicon " = some ⟨5, []⟩
    ∧ add_word_to_group "Lexicon " "default"
        (add_word_to_group "Lexicon " "default" []) =
      add_word_to_group "Lexicon " "default" [] :=
  ⟨(add_word_idempotent [] "Lexicon " "default").2.1 (by decide),
    (add_word_idempotent [] "Lexicon " "default").2.2⟩

/-- C4 counterexample: the store
`{"default": {}, "g": {"a": ...}}` has a non-empty group, yet starting the
quiz with no target group can pick the empty group `"default"`
(`random.choice` runs over ALL group names, main.py line 230) and reports
"No words found to test." — the engine reports an empty pool, refuting the
claim that the group is drawn only among groups containing a word and that
an empty pool is then never reported. -/
theorem word_test_empty_pool_counterexample :
    word_test_init [("default", []), ("g", [("a", ⟨5, []⟩)])] none 0 =
      TestInit.emptyPool "default"
    ∧ ("g", [("a", (⟨5, []⟩ : WordEntry))]) ∈
        ([("default", []), ("g", [("a", ⟨5, []⟩)])] : Store)
    ∧ ([("a", (⟨5, []⟩ : WordEntry))] : Group) ≠ [] := by
  refine ⟨by decide, by decide, by decide⟩

/-- C4 amended: with no target group the engine draws uniformly among ALL
group names (empty groups included); the drawn name is always a key of the
store, and when the drawn group is empty the engine reports an empty pool
and never enters SELECTING. Consequently, for a store in which every group
is non-empty the engine always starts with a non-empty pool, which is one
of the store's groups. -/
theorem word_test_random_group_spec (groups : Store) (r : Nat)
    (hne : groups ≠ []) (hall : ∀ p ∈ groups, p.2 ≠ ([] : Group)) :
    chosenGroupName groups r ∈ groups.map Prod.fst
    ∧ ∃ wd, word_test_init groups none r =
          TestInit.pool (chosenGroupName groups r) wd
        ∧ wd ≠ [] ∧ (chosenGroupName groups r, wd) ∈ groups := by
  have hlen : 0 < groups.length := List.length_pos.mpr hne
  have hkey : chosenGroupName groups r ∈ groups.map Prod.fst := by
    rw [chosenGroupName]
    exact getD_mem _ _ _ (by simpa using Nat.mod_lt r hlen)
  obtain ⟨wd, hwd⟩ := dictGet_isSome_of_mem_keys (chosenGroupName groups r)
    groups hkey
  have hmem := dictGet_mem _ _ _ hwd
  have hwdne : wd ≠ [] := hall _ hmem
  refine ⟨hkey, wd, ?_, hwdne, hmem⟩
  simp [word_test_init, hne, hwd, hwdne]

theorem word_test_random_group_spec_witness :
    chosenGroupName [("g", [("a", ⟨5, []⟩)])] 0 ∈
        ([("g", [("a", ⟨5, []⟩)])] : Store).map Prod.fst
    ∧ ∃ wd, word_test_init [("g", [("a", ⟨5, []⟩)])] none 0 =
          TestInit.pool (chosenGroupName [("g", [("a", ⟨5, []⟩)])] 0) wd
        ∧ wd ≠ [] ∧ (chosenGroupName [("g", [("a", ⟨5, []⟩)])] 0, wd) ∈
          ([("g", [("a", ⟨5, []⟩)])] : Store) :=
  word_test_random_group_spec [("g", [("a", ⟨5, []⟩)])] 0 (by decide)
    (by decide)

/-- C8 counterexample: a group holding `"b"` then `"a"` (insertion order)
makes `get_words_from_group` return `["b", "a"]`, which is not sorted —
main.py line 96 returns `list(....keys())` without sorting, refuting the
claim that the single-group listing is sorted. -/
theorem get_words_not_sorted :
    get_words_from_group [("g", [("b", ⟨5, []⟩), ("a", ⟨5, []⟩)])]
        (some "g") = ["b", "a"]
    ∧ ¬ List.Sorted pyStrLe ["b", "a"] :=
  ⟨by decide, by decide⟩

theorem foldl_extend_keys (l : List (String × Group)) (acc : List String) :
    l.foldl (fun all_words p => all_words ++ p.2.map Prod.fst) acc =
      acc ++ (l.map (fun p => p.2.map Prod.fst)).flatten := by
  induction l generalizing acc with
  | nil => simp
  | cons p t ih => simp [ih, List.append_assoc]

/-- C8 amended: `get_words_from_group` with a group returns that group's
words in their stored (insertion) order — exactly the words having an entry
there, with no sorting applied; with no group it returns the
non-deduplicated concatenation of all groups' word lists. -/
theorem get_words_spec (groups : Store) (gname w : String) :
    (w ∈ get_words_from_group groups (some gname) ↔
      ∃ e, (w, e) ∈ (dictGet gname groups).getD [])
    ∧ get_words_from_group groups none =
      (groups.map (fun p => p.2.map Prod.fst)).flatten := by
  constructor
  · rw [get_words_from_group]
    constructor
    · intro hx
      rw [List.mem_map] at hx
      obtain ⟨⟨a, b⟩, hp, hpe⟩ := hx
      subst hpe
      exact ⟨b, hp⟩
    · intro hx
      obtain ⟨e, he⟩ := hx
      rw [List.mem_map]
      exact ⟨(w, e), he, rfl⟩
  · rw [get_words_from_group, foldl_extend_keys]
    simp

/-- C7 counterexample: a persisted file whose content is the JSON text
`[]` decodes successfully, so `load_groups` returns the list itself — not a
store, and not the one-empty-default-group store — refuting the claim that
every storage state yields a store. -/
theorem load_groups_not_always_store :
    load_groups (some (PyJson.arr [])) = PyJson.arr []
    ∧ isObj (PyJson.arr []) = false
    ∧ load_groups (some (PyJson.arr [])) ≠ default_groups_json :=
  ⟨rfl, rfl, fun h => PyJson.noConfusion h⟩

/-- C7 amended: `load_groups` never raises for a missing or non-decodable
file and then returns exactly `{"default": {}}`; when the file decodes as
JSON the decoded value is returned unchanged — so the result is a dict
(object) exactly when the file was missing/corrupt or held a JSON object
(main.py lines 20-31 catch only FileNotFoundError and JSONDecodeError). -/
theorem load_groups_spec (p : Option PyJson) :
    load_groups none = PyJson.obj [("default", PyJson.obj [])]
    ∧ (∀ v, load_groups (some v) = v)
    ∧ (isObj (load_groups p) = true ↔
        p = none ∨ ∃ l, p = some (PyJson.obj l)) := by
  refine ⟨rfl, fun v => rfl, ?_⟩
  match p with
  | none => simp [load_groups, default_groups_json, isObj]
  | some v => cases v <;> simp [load_groups, isObj]

theorem load_groups_spec_witness :
    load_groups none = PyJson.obj [("default", PyJson.obj [])]
    ∧ (∀ v, load_groups (some v) = v)
    ∧ (isObj (load_groups (some (PyJson.str "x"))) = true ↔
        (some (PyJson.str "x") : Option PyJson) = none ∨
          ∃ l, (some (PyJson.str "x") : Option PyJson) =
            some (PyJson.obj l)) :=
  load_groups_spec (some (PyJson.str "x"))

theorem get_words_spec_witness :
    ("b" ∈ get_words_from_group
        [("g", [("b", ⟨5, []⟩), ("a", ⟨5, []⟩)])] (some "g") ↔
      ∃ e, ("b", e) ∈
        (dictGet "g"
          ([("g", [("b", ⟨5, []⟩), ("a", ⟨5, []⟩)])] : Store)).getD [])
    ∧ get_words_from_group [("g", [("b", ⟨5, []⟩), ("a", ⟨5, []⟩)])] none =
      (([("g", [("b", ⟨5, []⟩), ("a", ⟨5, []⟩)])] : Store).map
        (fun p => p.2.map Prod.fst)).flatten :=
  get_words_spec [("g", [("b", ⟨5, []⟩), ("a", ⟨5, []⟩)])] "g" "b"

end PocketDict
